import Mathlib

/-!
# Verification of `apple-codesign`'s code hashing core

Shallow embedding of `src/apple-codesign/src/code_hash.rs`:

* `compute_paged_hashes` chunks a byte slice into pages of `page_size`
  bytes (`data.chunks(page_size)` in Rust), digests each chunk and
  collects the per-chunk `Result`s into one `Result` (first error wins).
* `compute_code_hashes` applies `compute_paged_hashes` to every
  digestable segment of a Mach-O binary, collects the per-segment
  `Result`s (first error wins) and flattens the successful per-segment
  hash lists into one flat list.

Bytes are modelled as `Nat`, byte slices as `List Nat`.  The digest
algorithm (`DigestType`, whose `digest_data` lives outside this core) is
modelled parametrically as an arbitrary fallible function on byte lists,
which matches the universal quantification over algorithms in the
properties under study.  Rust's `slice::chunks` panics when the chunk
size is zero; a panic is modelled as the value `none` of an `Option`
layer wrapped around the function's `Result`.
-/

set_option autoImplicit false

namespace CodeHash

/-- A byte, modelled as a natural number. -/
abbrev Byte := Nat

/-- Abstract stand-in for the external `AppleCodesignError` type: the
claims never inspect the error payload, only propagate it. -/
abbrev AppleCodesignError := Nat

/-- The digest algorithm selector.  In the source, `DigestType` is an
enumeration defined in `embedded_signature.rs` (outside this core) whose
`digest_data` method digests a byte slice, fallibly.  We model a
`DigestType` by its digest function. -/
structure DigestType where
  digest_data : List Byte → Except AppleCodesignError (List Byte)

/-- Rust's `slice::chunks(page_size)` on a non-zero `page_size`:
consecutive non-overlapping chunks of `page_size` elements, the last
chunk possibly shorter, never empty.  (For `page_size = 0` Rust panics
before an iterator is created; callers below guard that case, so the
value returned here for `page_size = 0` is never used.) -/
def rustChunks (data : List Byte) (page_size : Nat) : List (List Byte) :=
  if page_size = 0 ∨ data = [] then []
  else data.take page_size :: rustChunks (data.drop page_size) page_size
termination_by data.length
decreasing_by
  rename_i h
  push_neg at h
  have h1 : page_size ≠ 0 := h.1
  have h2 : data ≠ [] := h.2
  simp only [List.length_drop]
  have hlen : 0 < data.length := List.length_pos.mpr h2
  omega

/-- `collect::<Result<Vec<_>, E>>()` over a list of results: the first
error aborts and is returned; otherwise the list of payloads. -/
def collectExcept {E A : Type} : List (Except E A) → Except E (List A)
  | [] => Except.ok []
  | Except.error e :: _ => Except.error e
  | Except.ok a :: rest => (collectExcept rest).map (fun as => a :: as)

/-- Sequencing of the panic layer: `none` (a panic) anywhere makes the
whole computation a panic. -/
def collectOption {A : Type} : List (Option A) → Option (List A)
  | [] => some []
  | none :: _ => none
  | some a :: rest => (collectOption rest).map (fun as => a :: as)

/-- `compute_paged_hashes` from `code_hash.rs`: chunk `data` into pages
of `page_size` bytes, digest each chunk, and collect the results,
aborting at the first digest error.  The outer `Option` models Rust
panics: `data.chunks(0)` panics, so `page_size = 0` yields `none`. -/
def compute_paged_hashes (data : List Byte) (hash : DigestType)
    (page_size : Nat) :
    Option (Except AppleCodesignError (List (List Byte))) :=
  if page_size = 0 then none
  else some (collectExcept ((rustChunks data page_size).map hash.digest_data))

/-- `compute_code_hashes` from `code_hash.rs`, starting from the ordered
digestable segments (their extraction from the Mach-O container is out of
scope): apply `compute_paged_hashes` to each segment in order, collect
the per-segment results (first error aborts), and flatten the
per-segment hash lists into one flat list. -/
def compute_code_hashes (segments : List (List Byte)) (hash : DigestType)
    (page_size : Nat) :
    Option (Except AppleCodesignError (List (List Byte))) :=
  (collectOption
      (segments.map (fun data => compute_paged_hashes data hash page_size))).map
    (fun results => (collectExcept results).map (fun hss => hss.flatten))

/-- A digest algorithm that always succeeds, returning the chunk itself;
used to evaluate the theorems on concrete inputs. -/
def idDigest : DigestType := ⟨fun chunk => Except.ok chunk⟩

/-- A digest algorithm that fails (with error code 7) exactly on the
given chunk value and succeeds elsewhere; used to exercise the error
paths on concrete inputs. -/
def failOn (bad : List Byte) : DigestType :=
  ⟨fun chunk => if chunk = bad then Except.error 7 else Except.ok chunk⟩

example : rustChunks [1, 2, 3, 4, 5] 2 = [[1, 2], [3, 4], [5]] := by
  simp [rustChunks]

example : compute_paged_hashes [1, 2, 3, 4, 5] idDigest 2
    = some (Except.ok [[1, 2], [3, 4], [5]]) := by
  simp [compute_paged_hashes, rustChunks, collectExcept, idDigest, Except.map]

example : compute_paged_hashes [1, 2, 3, 4, 5] (failOn [3, 4]) 2
    = some (Except.error 7) := by
  simp [compute_paged_hashes, rustChunks, collectExcept, failOn, Except.map]

example : compute_code_hashes [[1, 2, 3], [4]] idDigest 2
    = some (Except.ok [[1, 2], [3], [4]]) := by
  simp [compute_code_hashes, compute_paged_hashes, rustChunks, collectExcept,
    collectOption, idDigest, Except.map, Option.map]

example : compute_paged_hashes [] idDigest 0 = none := rfl

/-! ### Properties of the chunking -/

theorem rustChunks_nil (page_size : Nat) : rustChunks [] page_size = [] := by
  simp [rustChunks]

theorem rustChunks_cons {data : List Byte} {page_size : Nat}
    (hps : page_size ≠ 0) (hd : data ≠ []) :
    rustChunks data page_size
      = data.take page_size :: rustChunks (data.drop page_size) page_size := by
  conv_lhs => unfold rustChunks
  simp [hps, hd]

/-- The number of chunks is `⌈data.length / page_size⌉`, written with
natural division as `(data.length + page_size - 1) / page_size`. -/
theorem rustChunks_length (data : List Byte) (page_size : Nat)
    (hps : page_size ≠ 0) :
    (rustChunks data page_size).length
      = (data.length + page_size - 1) / page_size := by
  by_cases hd : data = []
  · subst hd
    simp only [rustChunks_nil, List.length_nil]
    exact (Nat.div_eq_of_lt (by omega)).symm
  · rw [rustChunks_cons hps hd, List.length_cons,
      rustChunks_length (data.drop page_size) page_size hps]
    simp only [List.length_drop]
    have hpos : 0 < data.length := List.length_pos.mpr hd
    have hps' : 0 < page_size := Nat.pos_of_ne_zero hps
    rcases le_or_lt data.length page_size with hle | hlt
    · have h1 : data.length - page_size = 0 := by omega
      rw [h1, Nat.zero_add, Nat.div_eq_of_lt (by omega)]
      have h3 : data.length + page_size - 1 = (data.length - 1) + 1 * page_size := by
        omega
      rw [h3, Nat.add_mul_div_right _ _ hps', Nat.div_eq_of_lt (by omega)]
    · have h4 : data.length - page_size + page_size - 1 = data.length - 1 := by omega
      have h5 : data.length + page_size - 1 = (data.length - 1) + page_size := by omega
      rw [h4, h5, Nat.add_div_right _ hps']
termination_by data.length
decreasing_by
  have hpos : 0 < data.length := List.length_pos.mpr hd
  simp only [List.length_drop]
  omega

/-- Chunk `j` of `data` is exactly the slice of `page_size` bytes
starting at offset `j * page_size` (shorter at the end), present exactly
when that offset lies inside `data`. -/
theorem rustChunks_getElem? (page_size : Nat) (hps : page_size ≠ 0) :
    ∀ (j : Nat) (data : List Byte),
      (rustChunks data page_size)[j]?
        = if data.drop (j * page_size) = [] then none
          else some ((data.drop (j * page_size)).take page_size)
  | 0, data => by
    by_cases hd : data = []
    · subst hd; simp [rustChunks_nil]
    · rw [rustChunks_cons hps hd]
      simp [hd]
  | j + 1, data => by
    by_cases hd : data = []
    · subst hd; simp [rustChunks_nil]
    · rw [rustChunks_cons hps hd]
      rw [List.getElem?_cons_succ]
      rw [rustChunks_getElem? page_size hps j (data.drop page_size)]
      rw [List.drop_drop]
      have hx : page_size + j * page_size = (j + 1) * page_size := by ring
      rw [hx]

/-! ### Properties of result collection -/

theorem collectExcept_ok_length {E A : Type} :
    ∀ {l : List (Except E A)} {as : List A},
      collectExcept l = Except.ok as → as.length = l.length
  | [], as, h => by
    simp only [collectExcept] at h
    cases h
    rfl
  | Except.error e :: rest, as, h => by
    simp only [collectExcept] at h
    exact Except.noConfusion h
  | Except.ok a :: rest, as, h => by
    simp only [collectExcept] at h
    cases hrest : collectExcept rest with
    | error e => rw [hrest] at h; simp [Except.map] at h
    | ok as' =>
      rw [hrest] at h
      simp only [Except.map, Except.ok.injEq] at h
      subst h
      simp [collectExcept_ok_length hrest]

theorem collectExcept_ok_getElem? {E A : Type} :
    ∀ {l : List (Except E A)} {as : List A},
      collectExcept l = Except.ok as →
      ∀ j : Nat, l[j]? = Option.map Except.ok as[j]?
  | [], as, h, j => by
    simp only [collectExcept] at h
    cases h
    simp
  | Except.error e :: rest, as, h, j => by
    simp only [collectExcept] at h
    exact Except.noConfusion h
  | Except.ok a :: rest, as, h, j => by
    simp only [collectExcept] at h
    cases hrest : collectExcept rest with
    | error e => rw [hrest] at h; simp [Except.map] at h
    | ok as' =>
      rw [hrest] at h
      simp only [Except.map, Except.ok.injEq] at h
      subst h
      cases j with
      | zero => simp
      | succ j => simpa using collectExcept_ok_getElem? hrest j

theorem collectExcept_first_error {E A : Type} :
    ∀ {k : Nat} {l : List (Except E A)} {e : E},
      l[k]? = some (Except.error e) →
      (∀ j : Nat, j < k → ∃ v, l[j]? = some (Except.ok v)) →
      collectExcept l = Except.error e
  | 0, l, e, hk, _ => by
    cases l with
    | nil => simp at hk
    | cons x rest =>
      simp only [List.getElem?_cons_zero, Option.some.injEq] at hk
      subst hk
      rfl
  | k + 1, l, e, hk, hprev => by
    cases l with
    | nil => simp at hk
    | cons x rest =>
      obtain ⟨v, hv⟩ := hprev 0 (Nat.succ_pos k)
      simp only [List.getElem?_cons_zero, Option.some.injEq] at hv
      subst hv
      simp only [List.getElem?_cons_succ] at hk
      have htail : collectExcept rest = Except.error e :=
        collectExcept_first_error hk (fun j hj => by
          simpa using hprev (j + 1) (Nat.succ_lt_succ hj))
      simp [collectExcept, htail, Except.map]

theorem collectExcept_append_ok {E A : Type} :
    ∀ {l₁ l₂ : List (Except E A)} {a₁ a₂ : List A},
      collectExcept l₁ = Except.ok a₁ → collectExcept l₂ = Except.ok a₂ →
      collectExcept (l₁ ++ l₂) = Except.ok (a₁ ++ a₂)
  | [], l₂, a₁, a₂, h₁, h₂ => by
    simp only [collectExcept] at h₁
    cases h₁
    simpa using h₂
  | Except.error e :: rest, l₂, a₁, a₂, h₁, h₂ => by
    simp only [collectExcept] at h₁
    exact Except.noConfusion h₁
  | Except.ok a :: rest, l₂, a₁, a₂, h₁, h₂ => by
    simp only [collectExcept] at h₁
    cases hrest : collectExcept rest with
    | error e => rw [hrest] at h₁; simp [Except.map] at h₁
    | ok as' =>
      rw [hrest] at h₁
      simp only [Except.map, Except.ok.injEq] at h₁
      subst h₁
      simp [collectExcept, collectExcept_append_ok hrest h₂, Except.map]

theorem collectExcept_map_ok {E A : Type} :
    ∀ (as : List A), collectExcept (as.map (Except.ok (ε := E))) = Except.ok as
  | [] => rfl
  | a :: rest => by
    simp [collectExcept, collectExcept_map_ok rest, Except.map]

theorem collectOption_map_some {A B : Type} (f : A → Option B) (g : A → B)
    (hf : ∀ x : A, f x = some (g x)) :
    ∀ l : List A, collectOption (l.map f) = some (l.map g)
  | [] => rfl
  | a :: rest => by
    simp [collectOption, hf a, collectOption_map_some f g hf rest, Option.map]

/-! ### Unfolding the two operations away from the panic case -/

theorem compute_paged_hashes_pos {data : List Byte} {hash : DigestType}
    {page_size : Nat} (hps : page_size ≠ 0) :
    compute_paged_hashes data hash page_size
      = some (collectExcept ((rustChunks data page_size).map hash.digest_data)) := by
  simp [compute_paged_hashes, hps]

theorem compute_paged_hashes_eq_some_imp {data : List Byte} {hash : DigestType}
    {page_size : Nat} {r : Except AppleCodesignError (List (List Byte))}
    (h : compute_paged_hashes data hash page_size = some r) : page_size ≠ 0 := by
  intro h0
  rw [h0] at h
  simp [compute_paged_hashes] at h

theorem compute_code_hashes_pos {segments : List (List Byte)}
    {hash : DigestType} {page_size : Nat} (hps : page_size ≠ 0) :
    compute_code_hashes segments hash page_size
      = some ((collectExcept (segments.map
            (fun data =>
              collectExcept ((rustChunks data page_size).map hash.digest_data)))).map
          (fun hss => hss.flatten)) := by
  unfold compute_code_hashes
  rw [collectOption_map_some
      (fun data => compute_paged_hashes data hash page_size)
      (fun data =>
        collectExcept ((rustChunks data page_size).map hash.digest_data))
      (fun _ => compute_paged_hashes_pos hps)]
  simp [Option.map]

/-! ### Claims -/

/-- C1: for every byte slice `data`, every digest algorithm and every
`page_size > 0`, when `compute_paged_hashes` succeeds its output has
exactly `⌈data.length / page_size⌉` entries (written with natural
division as `(data.length + page_size - 1) / page_size`). -/
theorem paged_hashes_length_eq_ceil (data : List Byte) (hash : DigestType)
    (page_size : Nat) (hps : 0 < page_size) (hs : List (List Byte))
    (hok : compute_paged_hashes data hash page_size = some (Except.ok hs)) :
    hs.length = (data.length + page_size - 1) / page_size := by
  rw [compute_paged_hashes_pos hps.ne'] at hok
  have hlen := collectExcept_ok_length (Option.some.inj hok)
  rw [List.length_map, rustChunks_length data page_size hps.ne'] at hlen
  exact hlen

theorem paged_hashes_length_eq_ceil_check :
    ([[1, 2], [3, 4], [5]] : List (List Byte)).length
      = (([1, 2, 3, 4, 5] : List Byte).length + 2 - 1) / 2 :=
  paged_hashes_length_eq_ceil [1, 2, 3, 4, 5] idDigest 2 (by decide)
    [[1, 2], [3, 4], [5]]
    (by simp [compute_paged_hashes, rustChunks, collectExcept, idDigest,
      Except.map])

/-- C3 as stated is false: calling `compute_paged_hashes` with
`page_size = 0` does not return an error value.  Rust's `slice::chunks`
panics on a zero chunk size, so the call crashes; in the embedding the
result is `none`, not `some` of anything — in particular not
`some (Except.error e)` for any `e`. -/
theorem page_size_zero_no_error_value :
    compute_paged_hashes [] idDigest 0 = none
      ∧ ¬ ∃ e : AppleCodesignError,
          compute_paged_hashes [] idDigest 0 = some (Except.error e) := by
  refine ⟨rfl, ?_⟩
  rintro ⟨e, he⟩
  simp [compute_paged_hashes] at he

/-- C3 (amended): calling `compute_paged_hashes` with `page_size = 0`
panics for every input `data` and every algorithm — Rust's
`slice::chunks` panics on a zero chunk size, modelled as `none` — so no
value, in particular no error value, is ever returned; the behavior is a
defined panic rather than undefined chunking. -/
theorem page_size_zero_panics (data : List Byte) (hash : DigestType) :
    compute_paged_hashes data hash 0 = none := rfl

/-- C6: for every algorithm and every `page_size > 0`,
`compute_paged_hashes` on the empty byte slice returns the empty output
sequence, never a one-element sequence (so never the digest of empty
bytes). -/
theorem paged_hashes_empty_input (hash : DigestType) (page_size : Nat)
    (hps : 0 < page_size) :
    compute_paged_hashes [] hash page_size = some (Except.ok [])
      ∧ ∀ d : List Byte,
          compute_paged_hashes [] hash page_size ≠ some (Except.ok [d]) := by
  have h : compute_paged_hashes [] hash page_size = some (Except.ok []) := by
    rw [compute_paged_hashes_pos hps.ne', rustChunks_nil]
    rfl
  refine ⟨h, fun d hd => ?_⟩
  rw [h] at hd
  simp at hd

theorem paged_hashes_empty_input_check :
    compute_paged_hashes [] idDigest 4096 = some (Except.ok []) :=
  (paged_hashes_empty_input idDigest 4096 (by decide)).1

/-- C8: determinism — the result of `compute_paged_hashes` (and of
`compute_code_hashes`) is a pure function of its arguments: two calls
whose data, page size and digest algorithm agree (the algorithms agreeing
on every chunk) yield identical results; there is no dependence on
randomness or memory layout. -/
theorem paged_hashes_deterministic (data : List Byte) (h1 h2 : DigestType)
    (page_size : Nat)
    (hext : ∀ chunk : List Byte, h1.digest_data chunk = h2.digest_data chunk) :
    compute_paged_hashes data h1 page_size = compute_paged_hashes data h2 page_size
      ∧ ∀ segments : List (List Byte),
          compute_code_hashes segments h1 page_size
            = compute_code_hashes segments h2 page_size := by
  have heq : h1 = h2 := by
    cases h1
    cases h2
    simp only [DigestType.mk.injEq]
    funext c
    exact hext c
  subst heq
  exact ⟨rfl, fun _ => rfl⟩

theorem paged_hashes_deterministic_check :
    compute_paged_hashes [1, 2, 3] idDigest 2
      = compute_paged_hashes [1, 2, 3] idDigest 2 :=
  (paged_hashes_deterministic [1, 2, 3] idDigest idDigest 2 (fun _ => rfl)).1

/-- C4: if the digest primitive errors on chunk `k` while every earlier
chunk digests successfully, `compute_paged_hashes` returns exactly that
error — no partial sequence of digests is observable, no matter how many
earlier chunks succeeded. -/
theorem paged_hashes_first_digest_error_aborts (data : List Byte)
    (hash : DigestType) (page_size : Nat) (hps : 0 < page_size)
    (k : Nat) (ck : List Byte) (e : AppleCodesignError)
    (hck : (rustChunks data page_size)[k]? = some ck)
    (he : hash.digest_data ck = Except.error e)
    (hprev : ∀ j : Nat, j < k → ∀ cj : List Byte,
        (rustChunks data page_size)[j]? = some cj →
        ∃ v, hash.digest_data cj = Except.ok v) :
    compute_paged_hashes data hash page_size = some (Except.error e) := by
  rw [compute_paged_hashes_pos hps.ne']
  congr 1
  apply collectExcept_first_error (k := k)
  · rw [List.getElem?_map, hck, Option.map_some', he]
  · intro j hj
    have hk : k < (rustChunks data page_size).length :=
      (List.getElem?_eq_some.mp hck).1
    have hjlen : j < (rustChunks data page_size).length := lt_trans hj hk
    obtain ⟨v, hv⟩ :=
      hprev j hj ((rustChunks data page_size)[j]) (List.getElem?_eq_getElem hjlen)
    exact ⟨v, by rw [List.getElem?_map, List.getElem?_eq_getElem hjlen,
      Option.map_some', hv]⟩

theorem paged_hashes_first_digest_error_aborts_check :
    compute_paged_hashes [1, 2, 3, 4, 5] (failOn [3, 4]) 2
      = some (Except.error 7) :=
  paged_hashes_first_digest_error_aborts [1, 2, 3, 4, 5] (failOn [3, 4]) 2
    (by decide) 1 [3, 4] 7
    (by simp [rustChunks])
    (by simp [failOn])
    (by
      intro j hj cj hcj
      interval_cases j
      refine ⟨[1, 2], ?_⟩
      simp [rustChunks] at hcj
      simp [failOn, ← hcj])

/-- C5: in the aggregator, if the paged-hash call for range `k` fails
while every earlier range's call succeeds, `compute_code_hashes` returns
exactly that error; the results of the earlier ranges are discarded and
no flat digest sequence is produced. -/
theorem code_hashes_first_range_error_aborts (segments : List (List Byte))
    (hash : DigestType) (page_size : Nat)
    (k : Nat) (dk : List Byte) (e : AppleCodesignError)
    (hk : segments[k]? = some dk)
    (herr : compute_paged_hashes dk hash page_size = some (Except.error e))
    (hprev : ∀ j : Nat, j < k → ∀ dj : List Byte, segments[j]? = some dj →
        ∃ hsj, compute_paged_hashes dj hash page_size = some (Except.ok hsj)) :
    compute_code_hashes segments hash page_size = some (Except.error e) := by
  have hps : page_size ≠ 0 := compute_paged_hashes_eq_some_imp herr
  rw [compute_code_hashes_pos hps]
  rw [compute_paged_hashes_pos hps] at herr
  have hcore : collectExcept (segments.map (fun data =>
      collectExcept ((rustChunks data page_size).map hash.digest_data)))
        = Except.error e := by
    apply collectExcept_first_error (k := k)
    · rw [List.getElem?_map, hk, Option.map_some', Option.some.inj herr]
    · intro j hj
      have hklen : k < segments.length := (List.getElem?_eq_some.mp hk).1
      have hjlen : j < segments.length := lt_trans hj hklen
      obtain ⟨hsj, hok⟩ :=
        hprev j hj (segments[j]) (List.getElem?_eq_getElem hjlen)
      rw [compute_paged_hashes_pos hps] at hok
      exact ⟨hsj, by rw [List.getElem?_map, List.getElem?_eq_getElem hjlen,
        Option.map_some', Option.some.inj hok]⟩
  rw [hcore]
  rfl

theorem code_hashes_first_range_error_aborts_check :
    compute_code_hashes [[1, 2], [3, 4, 5]] (failOn [3, 4]) 2
      = some (Except.error 7) :=
  code_hashes_first_range_error_aborts [[1, 2], [3, 4, 5]] (failOn [3, 4]) 2
    1 [3, 4, 5] 7
    (by simp)
    (by simp [compute_paged_hashes, rustChunks, collectExcept, failOn, Except.map])
    (by
      intro j hj dj hdj
      interval_cases j
      refine ⟨[[1, 2]], ?_⟩
      simp at hdj
      simp [compute_paged_hashes, rustChunks, collectExcept, failOn, Except.map,
        ← hdj])

/-- C2: the aggregator's output is the concatenation, in input order, of
`compute_paged_hashes` applied to each range: whenever each range's
paged-hash call succeeds, `compute_code_hashes` succeeds with the
flattening of the per-range hash sequences in order; in particular for
two ranges it is the concatenation of the two ranges' hash sequences,
preserving inter-range and intra-range order. -/
theorem code_hashes_eq_concat_paged_hashes (hash : DigestType)
    (page_size : Nat) (hps : 0 < page_size) :
    (∀ (segments : List (List Byte)) (hss : List (List (List Byte))),
        List.Forall₂
          (fun data hs =>
            compute_paged_hashes data hash page_size = some (Except.ok hs))
          segments hss →
        compute_code_hashes segments hash page_size
          = some (Except.ok hss.flatten))
      ∧ ∀ (r1 r2 : List Byte) (h1 h2 : List (List Byte)),
          compute_paged_hashes r1 hash page_size = some (Except.ok h1) →
          compute_paged_hashes r2 hash page_size = some (Except.ok h2) →
          compute_code_hashes [r1, r2] hash page_size
            = some (Except.ok (h1 ++ h2)) := by
  have hgen : ∀ (segments : List (List Byte)) (hss : List (List (List Byte))),
      List.Forall₂
        (fun data hs =>
          compute_paged_hashes data hash page_size = some (Except.ok hs))
        segments hss →
      compute_code_hashes segments hash page_size
        = some (Except.ok hss.flatten) := by
    intro segments hss hfa
    rw [compute_code_hashes_pos hps.ne']
    have hmap : segments.map (fun data =>
        collectExcept ((rustChunks data page_size).map hash.digest_data))
          = hss.map Except.ok := by
      induction hfa with
      | nil => rfl
      | cons hhead _ ih =>
        rw [compute_paged_hashes_pos hps.ne'] at hhead
        simp only [List.map_cons, ih]
        rw [Option.some.inj hhead]
    rw [hmap, collectExcept_map_ok]
    rfl
  refine ⟨hgen, fun r1 r2 h1 h2 hr1 hr2 => ?_⟩
  have h := hgen [r1, r2] [h1, h2]
    (List.Forall₂.cons hr1 (List.Forall₂.cons hr2 List.Forall₂.nil))
  simpa using h

theorem code_hashes_eq_concat_paged_hashes_check :
    compute_code_hashes [[1, 2, 3], [4]] idDigest 2
      = some (Except.ok ([[1, 2], [3]] ++ [[4]])) :=
  (code_hashes_eq_concat_paged_hashes idDigest 2 (by decide)).2
    [1, 2, 3] [4] [[1, 2], [3]] [[4]]
    (by simp [compute_paged_hashes, rustChunks, collectExcept, idDigest,
      Except.map])
    (by simp [compute_paged_hashes, rustChunks, collectExcept, idDigest,
      Except.map])

/-- When the data length is an exact multiple of the page size, every
chunk is full. -/
theorem rustChunks_full_of_mul (page_size : Nat) (hps : page_size ≠ 0)
    (data : List Byte) (N : Nat) (hlen : data.length = N * page_size) :
    ∀ c ∈ rustChunks data page_size, c.length = page_size := by
  by_cases hd : data = []
  · subst hd
    simp [rustChunks_nil]
  · have hpos : 0 < data.length := List.length_pos.mpr hd
    have hN : N ≠ 0 := by
      rintro rfl
      simp only [Nat.zero_mul] at hlen
      omega
    have hle : page_size ≤ data.length := by
      rw [hlen]
      exact Nat.le_mul_of_pos_left page_size (Nat.pos_of_ne_zero hN)
    rw [rustChunks_cons hps hd]
    intro c hc
    rcases List.mem_cons.mp hc with hc | hc
    · subst hc
      rw [List.length_take]
      exact min_eq_left hle
    · refine rustChunks_full_of_mul page_size hps (data.drop page_size)
        (N - 1) ?_ c hc
      have hmul : N * page_size = (N - 1) * page_size + page_size := by
        cases N with
        | zero => exact absurd rfl hN
        | succ n => simp [Nat.succ_mul]
      simp only [List.length_drop, hlen, hmul]
      omega
termination_by data.length
decreasing_by
  simp only [List.length_drop]
  omega

/-- C7: boundary exactness.  For `page_size > 0`: data of length exactly
`N * page_size` splits into exactly `N` chunks, each of exactly
`page_size` bytes (no empty trailing chunk); data of length
`N * page_size + r` with `0 < r < page_size` splits into `N + 1` chunks
whose last chunk is exactly the final `r` bytes; and on success the
digest at position `k` of the output is computed over exactly chunk `k`. -/
theorem paged_hashes_boundary_exactness (page_size : Nat)
    (hps : 0 < page_size) :
    (∀ (data : List Byte) (N : Nat), data.length = N * page_size →
        (rustChunks data page_size).length = N
          ∧ ∀ c ∈ rustChunks data page_size, c.length = page_size)
      ∧ (∀ (data : List Byte) (N r : Nat),
            data.length = N * page_size + r → 0 < r → r < page_size →
            (rustChunks data page_size).length = N + 1
              ∧ (rustChunks data page_size).getLast?
                  = some (data.drop (N * page_size))
              ∧ (data.drop (N * page_size)).length = r)
      ∧ ∀ (data : List Byte) (hash : DigestType) (hs : List (List Byte)),
          compute_paged_hashes data hash page_size = some (Except.ok hs) →
          ∀ k : Nat,
            Option.map hash.digest_data (rustChunks data page_size)[k]?
              = Option.map Except.ok hs[k]? := by
  refine ⟨?_, ?_, ?_⟩
  · intro data N hlen
    refine ⟨?_, rustChunks_full_of_mul page_size hps.ne' data N hlen⟩
    rw [rustChunks_length data page_size hps.ne', hlen]
    have h1 : N * page_size + page_size - 1
        = (page_size - 1) + N * page_size := by omega
    rw [h1, Nat.add_mul_div_right _ _ hps, Nat.div_eq_of_lt (by omega)]
    omega
  · intro data N r hlen hr hrps
    have hlength : (rustChunks data page_size).length = N + 1 := by
      rw [rustChunks_length data page_size hps.ne', hlen]
      have hmul : (N + 1) * page_size = N * page_size + page_size := by ring
      have h1 : N * page_size + r + page_size - 1
          = (r - 1) + (N + 1) * page_size := by omega
      rw [h1, Nat.add_mul_div_right _ _ hps, Nat.div_eq_of_lt (by omega)]
      omega
    have hdroplen : (data.drop (N * page_size)).length = r := by
      simp only [List.length_drop, hlen]
      omega
    refine ⟨hlength, ?_, hdroplen⟩
    rw [List.getLast?_eq_getElem?, hlength]
    simp only [Nat.add_sub_cancel]
    rw [rustChunks_getElem? page_size hps.ne' N data]
    have hne : data.drop (N * page_size) ≠ [] := by
      intro h0
      rw [h0] at hdroplen
      simp only [List.length_nil] at hdroplen
      omega
    rw [if_neg hne, List.take_of_length_le (by rw [hdroplen]; omega)]
  · intro data hash hs hok k
    rw [compute_paged_hashes_pos hps.ne'] at hok
    have h := collectExcept_ok_getElem? (Option.some.inj hok) k
    rw [List.getElem?_map] at h
    exact h

theorem paged_hashes_boundary_exactness_check :
    (rustChunks [1, 2, 3, 4, 5] 2).length = 2 + 1 :=
  ((paged_hashes_boundary_exactness 2 (by decide)).2.1 [1, 2, 3, 4, 5] 2 1
    (by decide) (by decide) (by decide)).1

/-- Two equal-length lists agreeing outside the byte window of chunk `k`
have identical chunk `j` slices for every `j ≠ k`. -/
theorem take_drop_eq_of_agree (a b : List Byte) (page_size k : Nat)
    (hagree : ∀ i : Nat,
        (i < k * page_size ∨ (k + 1) * page_size ≤ i) → a[i]? = b[i]?)
    (j : Nat) (hjk : j ≠ k) :
    (a.drop (j * page_size)).take page_size
      = (b.drop (j * page_size)).take page_size := by
  apply List.ext_getElem?
  intro i
  rw [List.getElem?_take, List.getElem?_take]
  by_cases hi : i < page_size
  · simp only [if_pos hi]
    rw [List.getElem?_drop, List.getElem?_drop]
    apply hagree
    rcases Nat.lt_or_ge j k with hj | hj
    · left
      have h1 : (j + 1) * page_size ≤ k * page_size :=
        Nat.mul_le_mul_right page_size hj
      have h2 : j * page_size + i < (j + 1) * page_size := by
        rw [Nat.succ_mul]
        omega
      omega
    · right
      have hj' : k + 1 ≤ j := by omega
      have h1 : (k + 1) * page_size ≤ j * page_size :=
        Nat.mul_le_mul_right page_size hj'
      omega
  · simp [hi]

/-- C9: chunk independence.  For a fixed `page_size > 0` and algorithm,
two equal-length inputs that differ only in bytes lying within chunk `k`
(positions `k * page_size ≤ i < (k+1) * page_size`) have, when both
calls succeed, outputs of equal length agreeing at every position other
than `k`. -/
theorem paged_hashes_chunk_independence (a b : List Byte)
    (hash : DigestType) (page_size k : Nat) (hps : 0 < page_size)
    (hlen : a.length = b.length)
    (hagree : ∀ i : Nat,
        (i < k * page_size ∨ (k + 1) * page_size ≤ i) → a[i]? = b[i]?)
    (ha hb : List (List Byte))
    (hA : compute_paged_hashes a hash page_size = some (Except.ok ha))
    (hB : compute_paged_hashes b hash page_size = some (Except.ok hb)) :
    ha.length = hb.length ∧ ∀ j : Nat, j ≠ k → ha[j]? = hb[j]? := by
  rw [compute_paged_hashes_pos hps.ne'] at hA hB
  have hA' := Option.some.inj hA
  have hB' := Option.some.inj hB
  constructor
  · have l1 := collectExcept_ok_length hA'
    have l2 := collectExcept_ok_length hB'
    rw [List.length_map, rustChunks_length a page_size hps.ne'] at l1
    rw [List.length_map, rustChunks_length b page_size hps.ne'] at l2
    rw [l1, l2, hlen]
  · intro j hjk
    have g1 := collectExcept_ok_getElem? hA' j
    have g2 := collectExcept_ok_getElem? hB' j
    rw [List.getElem?_map, rustChunks_getElem? page_size hps.ne' j a] at g1
    rw [List.getElem?_map, rustChunks_getElem? page_size hps.ne' j b] at g2
    have hdrop : a.drop (j * page_size) = [] ↔ b.drop (j * page_size) = [] := by
      rw [List.drop_eq_nil_iff, List.drop_eq_nil_iff, hlen]
    by_cases hnil : a.drop (j * page_size) = []
    · rw [if_pos hnil, Option.map_none'] at g1
      rw [if_pos (hdrop.mp hnil), Option.map_none'] at g2
      rw [Option.map_eq_none'.mp g1.symm, Option.map_eq_none'.mp g2.symm]
    · rw [if_neg hnil] at g1
      rw [if_neg (fun h0 => hnil (hdrop.mpr h0))] at g2
      rw [take_drop_eq_of_agree a b page_size k hagree j hjk] at g1
      have h := g1.symm.trans g2
      exact Option.map_injective (fun _ _ hxy => Except.ok.inj hxy) h

theorem paged_hashes_chunk_independence_check :
    ([[1, 2], [3, 4]] : List (List Byte)).length
      = ([[1, 2], [9, 9]] : List (List Byte)).length :=
  (paged_hashes_chunk_independence [1, 2, 3, 4] [1, 2, 9, 9] idDigest 2 1
    (by decide) (by decide)
    (by
      intro i hi
      rcases hi with hi | hi
      · interval_cases i <;> rfl
      · rw [List.getElem?_eq_none (by simpa using hi),
          List.getElem?_eq_none (by simpa using hi)])
    [[1, 2], [3, 4]] [[1, 2], [9, 9]]
    (by simp [compute_paged_hashes, rustChunks, collectExcept, idDigest,
      Except.map])
    (by simp [compute_paged_hashes, rustChunks, collectExcept, idDigest,
      Except.map])).1

/-- Chunking a page-aligned concatenation is the concatenation of the
chunkings. -/
theorem rustChunks_append (page_size : Nat) (hps : page_size ≠ 0)
    (a b : List Byte) (hdvd : page_size ∣ a.length) :
    rustChunks (a ++ b) page_size
      = rustChunks a page_size ++ rustChunks b page_size := by
  by_cases ha : a = []
  · subst ha
    simp [rustChunks_nil]
  · have hpos : 0 < a.length := List.length_pos.mpr ha
    have hle : page_size ≤ a.length := Nat.le_of_dvd hpos hdvd
    have hab : a ++ b ≠ [] := fun h => ha (List.append_eq_nil.mp h).1
    rw [rustChunks_cons hps hab, rustChunks_cons hps ha,
      List.take_append_of_le_length hle, List.drop_append_of_le_length hle,
      List.cons_append]
    congr 1
    refine rustChunks_append page_size hps (a.drop page_size) b ?_
    simp only [List.length_drop]
    exact Nat.dvd_sub' hdvd dvd_rfl
termination_by a.length
decreasing_by
  simp only [List.length_drop]
  omega

/-- C10: page-aligned split invariance.  For every two byte slices `a`
and `b`, every algorithm, and every `page_size > 0` dividing `a.length`,
the paged hashes of `a ++ b` are the paged hashes of `a` followed by the
paged hashes of `b` (stated on the success case); the flat output records
no boundary between page-aligned ranges. -/
theorem paged_hashes_page_aligned_append (a b : List Byte)
    (hash : DigestType) (page_size : Nat) (hps : 0 < page_size)
    (hdvd : page_size ∣ a.length) (ha hb : List (List Byte))
    (hA : compute_paged_hashes a hash page_size = some (Except.ok ha))
    (hB : compute_paged_hashes b hash page_size = some (Except.ok hb)) :
    compute_paged_hashes (a ++ b) hash page_size
      = some (Except.ok (ha ++ hb)) := by
  rw [compute_paged_hashes_pos hps.ne'] at hA hB
  rw [compute_paged_hashes_pos hps.ne',
    rustChunks_append page_size hps.ne' a b hdvd, List.map_append,
    collectExcept_append_ok (Option.some.inj hA) (Option.some.inj hB)]

theorem paged_hashes_page_aligned_append_check :
    compute_paged_hashes ([1, 2] ++ [3]) idDigest 2
      = some (Except.ok ([[1, 2]] ++ [[3]])) :=
  paged_hashes_page_aligned_append [1, 2] [3] idDigest 2 (by decide)
    (by decide) [[1, 2]] [[3]]
    (by simp [compute_paged_hashes, rustChunks, collectExcept, idDigest,
      Except.map])
    (by simp [compute_paged_hashes, rustChunks, collectExcept, idDigest,
      Except.map])

end CodeHash
